import Mathlib

/-!
Shallow embedding of the tic-tac-toe engine from `src/main.cpp`
(repository davidliljefors/tic-tac-toe-ai).

The embedding keeps the source's names and structure where Lean allows it:
`EPiece`, `CheckLine`, `CheckWin`, `MiniMax`, `FindBestMove`, and the
orchestrator steps `HandlePlayerTurn`/`HandleAiTurn`/`Reset` from class `App`.
`olc::vi2d` becomes the `Vi2d` structure of two integers.  The C++ board
`std::array<EPiece, 9>` becomes a `List EPiece`; all accesses in the source go
through bounds checks (either explicit grid guards or `.at`), so `List.getD`
with default `EPiece.None` is a faithful model of every in-contract access.
The two recursive functions of the source (`CheckLine` and `MiniMax`) are
embedded with an explicit fuel argument; fuel-independence above the bound
actually used is proved (`CheckLineF_stable`), so the fueled functions agree
with the C++ recursion everywhere the latter terminates.
-/

namespace TicTacToe

/-- `enum class EPiece` from the source: `None = 0, Cross = 1, Cricle = 2`
(the misspelling `Cricle` is the source's). -/
inductive EPiece where
  | None : EPiece
  | Cross : EPiece
  | Cricle : EPiece
deriving DecidableEq

/-- `constexpr int boardWidth = 3` from the source. -/
def boardWidth : Nat := 3

/-- `constexpr int piecesToWin = 3` from the source. -/
def piecesToWin : Nat := 3

/-- `constexpr EPiece playerPiece` — `playerStart` is `true`, so Cross. -/
def playerPiece : EPiece := EPiece.Cross

/-- `constexpr EPiece computerPiece` — `playerStart` is `true`, so Cricle. -/
def computerPiece : EPiece := EPiece.Cricle

/-- `using Board = std::array<EPiece, boardWidth * boardWidth>`. -/
abbrev Board := List EPiece

/-- `olc::vi2d`: a 2-d integer vector. -/
structure Vi2d where
  x : Int
  y : Int
deriving DecidableEq

/-- Componentwise vector addition, `operator+` of `olc::vi2d`. -/
def vadd (a b : Vi2d) : Vi2d := ⟨a.x + b.x, a.y + b.y⟩

/-- Componentwise negation of a direction vector. -/
def vneg (a : Vi2d) : Vi2d := ⟨-a.x, -a.y⟩

/-- The point `pos + k * dir` reached after `k` steps from `pos` along `dir`. -/
def rayPt (pos dir : Vi2d) (k : Nat) : Vi2d :=
  ⟨pos.x + (k : Int) * dir.x, pos.y + (k : Int) * dir.y⟩

/-- The flat board index of a grid position, `pos.x * boardWidth + pos.y`. -/
def posIdx (p : Vi2d) : Nat := (p.x * 3 + p.y).toNat

/-- The grid position of a flat index, `{ i / boardWidth, i % boardWidth }`
as computed at the top of `CheckWin`. -/
def idxPos (i : Nat) : Vi2d := ⟨((i / 3 : Nat) : Int), ((i % 3 : Nat) : Int)⟩

/-- Whether a position is inside the 3×3 grid (the guards of `CheckLine`). -/
def inGrid (p : Vi2d) : Prop := 0 ≤ p.x ∧ p.x < 3 ∧ 0 ≤ p.y ∧ p.y < 3

instance (p : Vi2d) : Decidable (inGrid p) := by
  unfold inGrid; infer_instance

/-- Cell read `board.at(pos.x * boardWidth + pos.y)`; every occurrence in the
source is guarded to be in-grid, where `List.getD` agrees with `.at`. -/
def cellAt (b : Board) (p : Vi2d) : EPiece := b.getD (posIdx p) EPiece.None

/-- `struct WinningMove { EPiece piece; olc::vi2d position; olc::vi2d direction; }`. -/
structure WinningMove where
  piece : EPiece
  position : Vi2d
  direction : Vi2d
deriving DecidableEq

/-- `int CheckLine(const Board&, EPiece, olc::vi2d pos, olc::vi2d searchDirection)`
from the source, with an explicit fuel bounding the recursion depth:

    if (pos.x < 0 || pos.x >= boardWidth) { return 0; }
    if (pos.y < 0 || pos.y >= boardWidth) { return 0; }
    if (board.at(pos.x * boardWidth + pos.y) != expected) { return 0; }
    return 1 + CheckLine(board, expected, pos + searchDirection, searchDirection);

`CheckLineF_stable` below proves the value is fuel-independent once the fuel
reaches `boardWidth + 1`, for every direction the recursion terminates on. -/
def CheckLineF : Nat → Board → EPiece → Vi2d → Vi2d → Nat
  | 0, _, _, _, _ => 0
  | fuel + 1, board, expected, pos, searchDirection =>
    if pos.x < 0 ∨ pos.x ≥ 3 then 0
    else if pos.y < 0 ∨ pos.y ≥ 3 then 0
    else if cellAt board pos ≠ expected then 0
    else 1 + CheckLineF fuel board expected (vadd pos searchDirection) searchDirection

/-- `CheckLine` of the source: the fueled recursion with fuel `boardWidth + 1`,
which `CheckLineF_stable` shows is enough for every terminating direction. -/
def CheckLine (board : Board) (expected : EPiece) (pos searchDirection : Vi2d) : Nat :=
  CheckLineF 4 board expected pos searchDirection

/-- `std::optional<WinningMove> CheckWin(const Board& board, int placedPiecePosition)`
from the source, line for line. -/
def CheckWin (board : Board) (placedPiecePosition : Nat) : Option WinningMove :=
  let placedPiece := board.getD placedPiecePosition EPiece.None
  let pos : Vi2d := idxPos placedPiecePosition
  let horizontalPieces := CheckLine board placedPiece pos ⟨-1, 0⟩ +
    CheckLine board placedPiece ⟨pos.x + 1, pos.y⟩ ⟨1, 0⟩
  if horizontalPieces ≥ piecesToWin then
    some ⟨placedPiece, pos, ⟨-1, 0⟩⟩
  else
    let verticalPieces := CheckLine board placedPiece pos ⟨0, -1⟩ +
      CheckLine board placedPiece ⟨pos.x, pos.y + 1⟩ ⟨0, 1⟩
    if verticalPieces ≥ piecesToWin then
      some ⟨placedPiece, pos, ⟨0, -1⟩⟩
    else
      let diag1pieces := CheckLine board placedPiece pos ⟨-1, -1⟩ +
        CheckLine board placedPiece ⟨pos.x + 1, pos.y + 1⟩ ⟨1, 1⟩
      if diag1pieces ≥ piecesToWin then
        some ⟨placedPiece, pos, ⟨-1, -1⟩⟩
      else
        let diag2pieces := CheckLine board placedPiece pos ⟨-1, 1⟩ +
          CheckLine board placedPiece ⟨pos.x + 1, pos.y - 1⟩ ⟨1, -1⟩
        if diag2pieces ≥ piecesToWin then
          some ⟨placedPiece, pos, ⟨-1, 1⟩⟩
        else
          none

/-- The `hasEmpty` scan at the top of `MiniMax`: `for (i...) if (board.at(i) == None)`. -/
def hasEmpty (board : Board) : Bool :=
  (List.range 9).any fun i => decide (board.getD i EPiece.None = EPiece.None)

/-- Number of empty cells of the board; used as the fuel of the `MiniMax`
recursion, which places one piece per level. -/
def countEmpty (board : Board) : Nat :=
  (List.range 9).countP fun i => decide (board.getD i EPiece.None = EPiece.None)

/-- `int MiniMax(Board& board, int depth, int placedPiece, bool isMax)` from the
source, as a state-passing function: the C++ takes the board by reference and
mutates it (place, recurse, unplace), so the embedding returns the value
together with the final state of the board.  `placedPiece` is the index of the
last move (the source's name).  Fuel bounds the recursion depth; every call
places a piece on an empty cell, so `countEmpty` fuel is exact and the `0`
stub is unreachable from the wrappers below. -/
def MiniMaxM : Nat → Board → Nat → Nat → Bool → Int × Board
  | fuel, board, depth, placedPiece, isMax =>
    match CheckWin board placedPiece with
    | some winner => (if winner.piece = computerPiece then 1 else -1, board)
    | none =>
      if hasEmpty board then
        match fuel with
        | 0 => (0, board)
        | fuel' + 1 =>
          if isMax then
            (List.range 9).foldl (fun acc i =>
              if acc.2.getD i EPiece.None = EPiece.None then
                let r := MiniMaxM fuel' (acc.2.set i computerPiece) (depth + 1) i false
                (max acc.1 r.1, r.2.set i EPiece.None)
              else acc) ((-1000 : Int), board)
          else
            (List.range 9).foldl (fun acc i =>
              if acc.2.getD i EPiece.None = EPiece.None then
                let r := MiniMaxM fuel' (acc.2.set i playerPiece) (depth + 1) i true
                (min acc.1 r.1, r.2.set i EPiece.None)
              else acc) ((1000 : Int), board)
      else (0, board)

/-- The value computed by `MiniMaxM`, in pure form: placing on an immutable
board instead of mutating and restoring.  `MiniMaxM_eq_pure` proves the two
agree and that the mutating form restores its board. -/
def MiniMaxP : Nat → Board → Nat → Nat → Bool → Int
  | fuel, board, depth, placedPiece, isMax =>
    match CheckWin board placedPiece with
    | some winner => if winner.piece = computerPiece then 1 else -1
    | none =>
      if hasEmpty board then
        match fuel with
        | 0 => 0
        | fuel' + 1 =>
          if isMax then
            (List.range 9).foldl (fun best i =>
              if board.getD i EPiece.None = EPiece.None then
                max best (MiniMaxP fuel' (board.set i computerPiece) (depth + 1) i false)
              else best) (-1000)
          else
            (List.range 9).foldl (fun best i =>
              if board.getD i EPiece.None = EPiece.None then
                min best (MiniMaxP fuel' (board.set i playerPiece) (depth + 1) i true)
              else best) 1000
      else 0

/-- `MiniMax` as called from `FindBestMove`: the fueled recursion with exactly
as much fuel as there are empty cells, which is the depth the C++ recursion
can reach. -/
def MiniMax (board : Board) (depth : Nat) (placedPiece : Nat) (isMax : Bool) : Int :=
  (MiniMaxM (countEmpty board) board depth placedPiece isMax).1

/-- `int FindBestMove(Board board, EPiece piece)` from the source, as a
state-passing function over the local by-value copy of the board:

    int bestVal = -1000; int bestMove = -1;
    for (int i = 0; i < boardWidth * boardWidth; i++)
      if (board.at(i) == EPiece::None) {
        board.at(i) = piece;
        const int moveVal = MiniMax(board, 0, i, false);
        board.at(i) = EPiece::None;
        if (moveVal > bestVal) { bestMove = i; bestVal = moveVal; }
      }
    return bestMove;

The accumulator carries `(bestVal, bestMove)` and the board. -/
def FindBestMoveM (board : Board) (piece : EPiece) : (Int × Int) × Board :=
  (List.range 9).foldl (fun acc i =>
    if acc.2.getD i EPiece.None = EPiece.None then
      let placed := acc.2.set i piece
      let moveVal := MiniMax placed 0 i false
      let restored := placed.set i EPiece.None
      if moveVal > acc.1.1 then ((moveVal, (i : Int)), restored) else (acc.1, restored)
    else acc) (((-1000 : Int), (-1 : Int)), board)

/-- The returned `bestMove` of `FindBestMove`. -/
def FindBestMove (board : Board) (piece : EPiece) : Int :=
  (FindBestMoveM board piece).1.2

/-- The game-logic fields of class `App` touched by `Reset`,
`HandlePlayerTurn` and `HandleAiTurn` (rendering and timing fields are
presentation glue and are out of the embedded core). -/
structure GameState where
  board : Board
  placedPieces : Nat
  currentTurn : EPiece
  winningMove : Option WinningMove
deriving DecidableEq

/-- `App::Reset`: board cleared, zero placed pieces, Cross to move, no
winning move. -/
def ResetState : GameState :=
  { board := List.replicate 9 EPiece.None
    placedPieces := 0
    currentTurn := EPiece.Cross
    winningMove := none }

/-- The placement path of `App::HandlePlayerTurn`, given the selected tile:

    if (board.at(SelectedTile) == EPiece::None) {
      placedPieces++;
      board.at(SelectedTile) = currentTurn;
      currentTurn = currentTurn == Cross ? Cricle : Cross;
      winningMove = CheckWin(board, SelectedTile);
    }

`std::array::at` throws `std::out_of_range` on an index outside `[0, 9)`,
modelled as the `Except.error` branch; an occupied tile is silently skipped. -/
def HandlePlayerTurnStep (st : GameState) (selectedTile : Nat) :
    Except String GameState :=
  if selectedTile ≥ 9 then Except.error "out_of_range"
  else if st.board.getD selectedTile EPiece.None = EPiece.None then
    let board2 := st.board.set selectedTile st.currentTurn
    Except.ok
      { board := board2
        placedPieces := st.placedPieces + 1
        currentTurn := if st.currentTurn = EPiece.Cross then EPiece.Cricle else EPiece.Cross
        winningMove := CheckWin board2 selectedTile }
  else Except.ok st

/-- The result-application path of `App::HandleAiTurn`, given the completed
search result `move = aiNextmMove.get()`:

    if (move != -1) {
      if (board.at(move) == EPiece::None) {
        placedPieces++;
        board.at(move) = computerPiece;
        currentTurn = currentTurn == Cross ? Cricle : Cross;
        winningMove = CheckWin(board, move);
      }
    }
-/
def HandleAiTurnStep (st : GameState) (move : Int) : Except String GameState :=
  if move ≠ -1 then
    if move < 0 ∨ move ≥ 9 then Except.error "out_of_range"
    else if st.board.getD move.toNat EPiece.None = EPiece.None then
      let board2 := st.board.set move.toNat computerPiece
      Except.ok
        { board := board2
          placedPieces := st.placedPieces + 1
          currentTurn := if st.currentTurn = EPiece.Cross then EPiece.Cricle else EPiece.Cross
          winningMove := CheckWin board2 move.toNat }
    else Except.ok st
  else Except.ok st

/-- Number of non-Empty cells of the board (the invariant counterpart of
`placedPieces`). -/
def countNonEmpty (board : Board) : Nat :=
  (List.range 9).countP fun i => decide (board.getD i EPiece.None ≠ EPiece.None)

/-! ### Specification-side notions used to state the claims -/

/-- The four canonical "negative" direction representatives returned by
`CheckWin`, in its fixed priority order: horizontal, vertical, the two
diagonals. -/
def negDirs : List Vi2d := [⟨-1, 0⟩, ⟨0, -1⟩, ⟨-1, -1⟩, ⟨-1, 1⟩]

/-- Priority rank of a direction family in the order `CheckWin` checks them. -/
def dirRank (d : Vi2d) : Nat :=
  if d = (⟨-1, 0⟩ : Vi2d) then 0
  else if d = (⟨0, -1⟩ : Vi2d) then 1
  else if d = (⟨-1, -1⟩ : Vi2d) then 2
  else if d = (⟨-1, 1⟩ : Vi2d) then 3
  else 4

/-- A contiguous same-piece run of length `L` on the board: anchored at `q`
(the extremal cell in the direction `d`), extending in the positive direction
`-d`; every cell is in the grid and holds `p`. -/
def isRun (b : Board) (p : EPiece) (q d : Vi2d) (L : Nat) : Prop :=
  ∀ k, k < L → inGrid (rayPt q (vneg d) k) ∧ cellAt b (rayPt q (vneg d) k) = p

instance (b : Board) (p : EPiece) (q d : Vi2d) (L : Nat) :
    Decidable (isRun b p q d L) := by
  unfold isRun; infer_instance

/-- The total length counted by `CheckWin` for one direction family at `pos`:
the run through `pos` (inclusive) in the negative direction `d` plus the run
from the next cell on in the positive direction `-d`. -/
def lineTotal (b : Board) (p : EPiece) (pos d : Vi2d) : Nat :=
  CheckLine b p pos d + CheckLine b p (vadd pos (vneg d)) (vneg d)

/-- Upper bound on how many cells `CheckLine` can still traverse from `pos`
before its moving coordinate leaves `[0, boardWidth)`. -/
def rayBound (pos dir : Vi2d) : Nat :=
  if 0 < dir.x then (3 - pos.x).toNat
  else if dir.x < 0 then (pos.x + 1).toNat
  else if 0 < dir.y then (3 - pos.y).toNat
  else if dir.y < 0 then (pos.y + 1).toNat
  else 0

/-- The argmax scan of `FindBestMove` in isolation: fold over cell indices,
keep `(bestVal, bestMove)`, update only on a strict improvement at a cell
satisfying `P`. -/
def scanBest (P : Nat → Prop) [DecidablePred P] (v : Nat → Int) (n : Nat) : Int × Int :=
  (List.range n).foldl (fun acc i =>
    if P i then (if v i > acc.1 then (v i, (i : Int)) else acc) else acc)
    ((-1000 : Int), (-1 : Int))

/-- The cell order in which the bound checkers below try moves: a permutation
of `0..8` starting from the centre, which keeps their backtracking small.
Soundness never depends on the order, only on this being a permutation. -/
def searchOrder : List Nat := [4, 0, 2, 6, 8, 1, 3, 5, 7]

/-- Verified pruned search certifying `MiniMaxP fuel b _ p isMax ≤ c`: at a
maximizing node every empty cell must satisfy the bound, at a minimizing node
one empty cell suffices (the minimizer's strategy). -/
def ubCheck : Nat → Board → Nat → Bool → Int → Bool
  | 0, board, placedPiece, _, c =>
    match CheckWin board placedPiece with
    | some winner => decide ((if winner.piece = computerPiece then (1 : Int) else -1) ≤ c)
    | none => if hasEmpty board then false else decide ((0 : Int) ≤ c)
  | fuel + 1, board, placedPiece, isMax, c =>
    match CheckWin board placedPiece with
    | some winner => decide ((if winner.piece = computerPiece then (1 : Int) else -1) ≤ c)
    | none =>
      if hasEmpty board then
        if isMax then
          searchOrder.all fun i =>
            !(decide (board.getD i EPiece.None = EPiece.None)) ||
              ubCheck fuel (board.set i computerPiece) i false c
        else
          searchOrder.any fun i =>
            decide (board.getD i EPiece.None = EPiece.None) &&
              ubCheck fuel (board.set i playerPiece) i true c
      else decide ((0 : Int) ≤ c)

/-- Verified pruned search certifying `c ≤ MiniMaxP fuel b _ p isMax`: dual to
`ubCheck` (one witness move at maximizing nodes, all moves at minimizing ones). -/
def lbCheck : Nat → Board → Nat → Bool → Int → Bool
  | 0, board, placedPiece, _, c =>
    match CheckWin board placedPiece with
    | some winner => decide (c ≤ (if winner.piece = computerPiece then (1 : Int) else -1))
    | none => if hasEmpty board then false else decide (c ≤ (0 : Int))
  | fuel + 1, board, placedPiece, isMax, c =>
    match CheckWin board placedPiece with
    | some winner => decide (c ≤ (if winner.piece = computerPiece then (1 : Int) else -1))
    | none =>
      if hasEmpty board then
        if isMax then
          searchOrder.any fun i =>
            decide (board.getD i EPiece.None = EPiece.None) &&
              lbCheck fuel (board.set i computerPiece) i false c
        else
          searchOrder.all fun i =>
            !(decide (board.getD i EPiece.None = EPiece.None)) ||
              lbCheck fuel (board.set i playerPiece) i true c
      else decide (c ≤ (0 : Int))

/-! ### Concrete boards used by counterexamples and witnesses -/

/-- The spec's scenario board `[X,X,Empty, O,O,Empty, Empty,Empty,Empty]`. -/
def boardC5a : Board :=
  [EPiece.Cross, EPiece.Cross, EPiece.None,
   EPiece.Cricle, EPiece.Cricle, EPiece.None,
   EPiece.None, EPiece.None, EPiece.None]

/-- The scenario board after additionally placing X at index 2. -/
def boardC5b : Board :=
  [EPiece.Cross, EPiece.Cross, EPiece.Cross,
   EPiece.Cricle, EPiece.Cricle, EPiece.None,
   EPiece.None, EPiece.None, EPiece.None]

/-- A board where two winning runs of different families cross at index 4:
X at indices 1, 3, 4, 5, 7. -/
def boardPlus : Board :=
  [EPiece.None, EPiece.Cross, EPiece.None,
   EPiece.Cross, EPiece.Cross, EPiece.Cross,
   EPiece.None, EPiece.Cross, EPiece.None]

/-- A board with a single Cross at index 0 and no run of length ≥ 2. -/
def boardOneX : Board :=
  [EPiece.Cross, EPiece.None, EPiece.None,
   EPiece.None, EPiece.None, EPiece.None,
   EPiece.None, EPiece.None, EPiece.None]

/-- The empty board. -/
def boardEmpty : Board := List.replicate 9 EPiece.None

/-- A board with a single empty cell (index 7), no line of three anywhere:
X at 0,1,5,6 and O at 2,3,4,8. -/
def boardOneEmpty : Board :=
  [EPiece.Cross, EPiece.Cross, EPiece.Cricle,
   EPiece.Cricle, EPiece.Cricle, EPiece.Cross,
   EPiece.Cross, EPiece.None, EPiece.Cricle]

/-- The state after the first placement `HandlePlayerTurnStep ResetState 0`. -/
def stateAfterFirst : GameState :=
  { board := boardOneX
    placedPieces := 1
    currentTurn := EPiece.Cricle
    winningMove := none }

/-- A game state whose board holds one Cross at index 0, one placed piece,
Cricle to move. -/
def stateOneX : GameState :=
  { board := boardOneX
    placedPieces := 1
    currentTurn := EPiece.Cricle
    winningMove := none }

/-! ### Basic lemmas -/

theorem Vi2d.extEq (a b : Vi2d) (hx : a.x = b.x) (hy : a.y = b.y) : a = b := by
  cases a; cases b; cases hx; cases hy; rfl

theorem rayPt_zero (pos d : Vi2d) : rayPt pos d 0 = pos := by
  apply Vi2d.extEq <;> simp [rayPt]

theorem rayPt_succ (pos d : Vi2d) (k : Nat) :
    rayPt (vadd pos d) d k = rayPt pos d (k + 1) := by
  apply Vi2d.extEq <;> simp [rayPt, vadd] <;> push_cast <;> ring

theorem CheckLineF_succ (f : Nat) (b : Board) (p : EPiece) (pos d : Vi2d) :
    CheckLineF (f + 1) b p pos d =
      if pos.x < 0 ∨ pos.x ≥ 3 then 0
      else if pos.y < 0 ∨ pos.y ≥ 3 then 0
      else if cellAt b pos ≠ p then 0
      else 1 + CheckLineF f b p (vadd pos d) d := rfl

theorem CheckLineF_succ_out (f : Nat) (b : Board) (p : EPiece) (pos d : Vi2d)
    (h : ¬ inGrid pos) : CheckLineF (f + 1) b p pos d = 0 := by
  rw [CheckLineF_succ]
  unfold inGrid at h
  split_ifs with h1 h2 h3 <;> first | rfl | omega

theorem CheckLineF_succ_match (f : Nat) (b : Board) (p : EPiece) (pos d : Vi2d)
    (h : inGrid pos) (hc : cellAt b pos = p) :
    CheckLineF (f + 1) b p pos d = 1 + CheckLineF f b p (vadd pos d) d := by
  rw [CheckLineF_succ]
  obtain ⟨h1, h2, h3, h4⟩ := h
  rw [if_neg (by omega), if_neg (by omega), if_neg (by simp [hc])]

theorem CheckLineF_sound (b : Board) (p : EPiece) (d : Vi2d) :
    ∀ (f : Nat) (pos : Vi2d) (k : Nat), k < CheckLineF f b p pos d →
      inGrid (rayPt pos d k) ∧ cellAt b (rayPt pos d k) = p := by
  intro f
  induction f with
  | zero => intro pos k hk; simp [CheckLineF] at hk
  | succ f ih =>
    intro pos k hk
    rw [CheckLineF_succ] at hk
    by_cases h1 : pos.x < 0 ∨ pos.x ≥ 3
    · simp [h1] at hk
    by_cases h2 : pos.y < 0 ∨ pos.y ≥ 3
    · simp [h1, h2] at hk
    by_cases h3 : cellAt b pos ≠ p
    · simp [h1, h2, h3] at hk
    · rw [if_neg h1, if_neg h2, if_neg h3] at hk
      push_neg at h3
      have hin : inGrid pos := by unfold inGrid; omega
      cases k with
      | zero => rw [rayPt_zero]; exact ⟨hin, h3⟩
      | succ k =>
        have hrec := ih (vadd pos d) k (by omega)
        rw [rayPt_succ] at hrec
        exact hrec

theorem CheckLineF_complete (b : Board) (p : EPiece) (d : Vi2d) :
    ∀ (m f : Nat) (pos : Vi2d), m ≤ f →
      (∀ k, k < m → inGrid (rayPt pos d k) ∧ cellAt b (rayPt pos d k) = p) →
      m ≤ CheckLineF f b p pos d := by
  intro m
  induction m with
  | zero => intro f pos _ _; omega
  | succ m ih =>
    intro f pos hmf hcells
    obtain ⟨g, rfl⟩ : ∃ g, f = g + 1 := ⟨f - 1, by omega⟩
    have h0 := hcells 0 (by omega)
    rw [rayPt_zero] at h0
    rw [CheckLineF_succ_match g b p pos d h0.1 h0.2]
    have hrec := ih g (vadd pos d) (by omega) (by
      intro k hk
      rw [rayPt_succ]
      exact hcells (k + 1) (by omega))
    omega

theorem rayBound_step (pos d : Vi2d) (hin : inGrid pos) (hnz : d.x ≠ 0 ∨ d.y ≠ 0) :
    rayBound (vadd pos d) d < rayBound pos d := by
  obtain ⟨h1, h2, h3, h4⟩ := hin
  simp only [rayBound, vadd]
  split_ifs <;> omega

theorem rayBound_le_three (pos d : Vi2d) (hin : inGrid pos) : rayBound pos d ≤ 3 := by
  obtain ⟨h1, h2, h3, h4⟩ := hin
  unfold rayBound
  split_ifs <;> omega

theorem CheckLineF_stable_aux (b : Board) (p : EPiece) (d : Vi2d)
    (hnz : d.x ≠ 0 ∨ d.y ≠ 0) :
    ∀ (f1 f2 : Nat) (pos : Vi2d), rayBound pos d < f1 → rayBound pos d < f2 →
      CheckLineF f1 b p pos d = CheckLineF f2 b p pos d := by
  intro f1
  induction f1 with
  | zero => intro f2 pos h1 _; omega
  | succ f1 ih =>
    intro f2 pos h1 h2
    obtain ⟨g2, rfl⟩ : ∃ g2, f2 = g2 + 1 := ⟨f2 - 1, by omega⟩
    by_cases hin : inGrid pos
    · by_cases hc : cellAt b pos = p
      · rw [CheckLineF_succ_match f1 b p pos d hin hc,
          CheckLineF_succ_match g2 b p pos d hin hc]
        have hstep := rayBound_step pos d hin hnz
        rw [ih g2 (vadd pos d) (by omega) (by omega)]
      · rw [CheckLineF_succ, CheckLineF_succ, if_neg, if_neg, if_pos (by simp [hc]),
          if_neg, if_neg, if_pos (by simp [hc])]
        all_goals unfold inGrid at hin; omega
    · rw [CheckLineF_succ_out f1 b p pos d hin, CheckLineF_succ_out g2 b p pos d hin]

theorem CheckLineF_stable (b : Board) (p : EPiece) (pos d : Vi2d)
    (hnz : d.x ≠ 0 ∨ d.y ≠ 0) (f : Nat) (hf : 4 ≤ f) :
    CheckLineF f b p pos d = CheckLine b p pos d := by
  by_cases hin : inGrid pos
  · have h3 := rayBound_le_three pos d hin
    exact CheckLineF_stable_aux b p d hnz f 4 pos (by omega) (by omega)
  · obtain ⟨g, rfl⟩ : ∃ g, f = g + 1 := ⟨f - 1, by omega⟩
    unfold CheckLine
    rw [CheckLineF_succ_out g b p pos d hin, CheckLineF_succ_out 3 b p pos d hin]

/-! ### List and fold helper lemmas -/

theorem getD_cons_succ' (a : EPiece) (t : List EPiece) (i : Nat) (d : EPiece) :
    (a :: t).getD (i + 1) d = t.getD i d := rfl

theorem set_none_of_getD_none :
    ∀ (b : List EPiece) (i : Nat), b.getD i EPiece.None = EPiece.None →
      b.set i EPiece.None = b := by
  intro b
  induction b with
  | nil => intro i _; rfl
  | cons a t ih =>
    intro i h
    cases i with
    | zero => simp only [List.getD_cons_zero] at h; rw [h]; rfl
    | succ i => simp only [getD_cons_succ'] at h; simp [List.set, ih i h]

theorem getD_set_ne :
    ∀ (b : List EPiece) (i j : Nat) (p d : EPiece), i ≠ j →
      (b.set i p).getD j d = b.getD j d := by
  intro b
  induction b with
  | nil => intro i j p d _; rfl
  | cons a t ih =>
    intro i j p d hij
    cases i with
    | zero =>
      cases j with
      | zero => omega
      | succ j => rfl
    | succ i =>
      cases j with
      | zero => rfl
      | succ j => simpa [List.set] using ih i j p d (by omega)

theorem getD_set_self :
    ∀ (b : List EPiece) (i : Nat) (p d : EPiece), i < b.length →
      (b.set i p).getD i d = p := by
  intro b
  induction b with
  | nil => intro i p d h; simp at h
  | cons a t ih =>
    intro i p d h
    cases i with
    | zero => rfl
    | succ i => simpa [List.set] using ih i p d (by simpa using h)

theorem foldl_pair_eq {α : Type} (b : Board) (F : (α × Board) → Nat → (α × Board))
    (g : α → Nat → α) :
    ∀ (l : List Nat), (∀ (v : α) (i : Nat), i ∈ l → F (v, b) i = (g v i, b)) →
      ∀ (v : α), l.foldl F (v, b) = (l.foldl g v, b) := by
  intro l
  induction l with
  | nil => intro _ v; rfl
  | cons a t ih =>
    intro h v
    have ha := h v a (by simp)
    simp only [List.foldl_cons, ha]
    exact ih (fun w i hi => h w i (by simp [hi])) (g v a)

theorem foldl_max_le (P : Nat → Prop) [DecidablePred P] (v : Nat → Int) (c : Int) :
    ∀ (l : List Nat) (init : Int), init ≤ c → (∀ i ∈ l, P i → v i ≤ c) →
      l.foldl (fun best i => if P i then max best (v i) else best) init ≤ c := by
  intro l
  induction l with
  | nil => intro init h _; simpa using h
  | cons a t ih =>
    intro init hinit h
    simp only [List.foldl_cons]
    apply ih
    · by_cases hp : P a
      · simp only [if_pos hp]
        exact max_le hinit (h a (by simp) hp)
      · simpa [hp] using hinit
    · intro i hi hpi
      exact h i (by simp [hi]) hpi

theorem foldl_max_init_le (P : Nat → Prop) [DecidablePred P] (v : Nat → Int) :
    ∀ (l : List Nat) (init : Int),
      init ≤ l.foldl (fun best i => if P i then max best (v i) else best) init := by
  intro l
  induction l with
  | nil => intro init; simp
  | cons a t ih =>
    intro init
    simp only [List.foldl_cons]
    refine le_trans ?_ (ih _)
    by_cases hp : P a <;> simp [hp]

theorem elem_le_foldl_max (P : Nat → Prop) [DecidablePred P] (v : Nat → Int) :
    ∀ (l : List Nat) (init : Int) (i : Nat), i ∈ l → P i →
      v i ≤ l.foldl (fun best j => if P j then max best (v j) else best) init := by
  intro l
  induction l with
  | nil => intro init i hi _; simp at hi
  | cons a t ih =>
    intro init i hi hp
    simp only [List.foldl_cons]
    rcases List.mem_cons.mp hi with rfl | hit
    · refine le_trans ?_ (foldl_max_init_le P v t _)
      simp [hp]
    · exact ih _ i hit hp

theorem foldl_min_ge (P : Nat → Prop) [DecidablePred P] (v : Nat → Int) (c : Int) :
    ∀ (l : List Nat) (init : Int), c ≤ init → (∀ i ∈ l, P i → c ≤ v i) →
      c ≤ l.foldl (fun best i => if P i then min best (v i) else best) init := by
  intro l
  induction l with
  | nil => intro init h _; simpa using h
  | cons a t ih =>
    intro init hinit h
    simp only [List.foldl_cons]
    apply ih
    · by_cases hp : P a
      · simp only [if_pos hp]
        exact le_min hinit (h a (by simp) hp)
      · simpa [hp] using hinit
    · intro i hi hpi
      exact h i (by simp [hi]) hpi

theorem foldl_min_init_ge (P : Nat → Prop) [DecidablePred P] (v : Nat → Int) :
    ∀ (l : List Nat) (init : Int),
      l.foldl (fun best i => if P i then min best (v i) else best) init ≤ init := by
  intro l
  induction l with
  | nil => intro init; simp
  | cons a t ih =>
    intro init
    simp only [List.foldl_cons]
    refine le_trans (ih _) ?_
    by_cases hp : P a <;> simp [hp]

theorem foldl_min_le_elem (P : Nat → Prop) [DecidablePred P] (v : Nat → Int) :
    ∀ (l : List Nat) (init : Int) (i : Nat), i ∈ l → P i →
      l.foldl (fun best j => if P j then min best (v j) else best) init ≤ v i := by
  intro l
  induction l with
  | nil => intro init i hi _; simp at hi
  | cons a t ih =>
    intro init i hi hp
    simp only [List.foldl_cons]
    rcases List.mem_cons.mp hi with rfl | hit
    · refine le_trans (foldl_min_init_ge P v t _) ?_
      simp [hp]
    · exact ih _ i hit hp

/-! ### The mutating search restores its board and equals the pure search -/

theorem hasEmpty_iff (b : Board) :
    hasEmpty b = true ↔ ∃ i, i ∈ List.range 9 ∧ b.getD i EPiece.None = EPiece.None := by
  simp [hasEmpty, List.any_eq_true]

theorem MiniMaxM_eq_pure :
    ∀ (fuel : Nat) (b : Board) (depth placedPiece : Nat) (isMax : Bool),
      MiniMaxM fuel b depth placedPiece isMax =
        (MiniMaxP fuel b depth placedPiece isMax, b) := by
  intro fuel
  induction fuel with
  | zero =>
    intro b depth p m
    rcases h : CheckWin b p with _ | w <;>
      simp only [MiniMaxM, MiniMaxP, h] <;> split_ifs <;> rfl
  | succ fuel ih =>
    intro b depth p m
    rcases h : CheckWin b p with _ | w
    · by_cases he : hasEmpty b
      · cases m
        · simp only [MiniMaxM, MiniMaxP, h, he, if_true, Bool.false_eq_true, if_false]
          apply foldl_pair_eq
          intro v i _
          by_cases hv : b.getD i EPiece.None = EPiece.None
          · simp only [if_pos hv, ih (b.set i playerPiece) (depth + 1) i true,
              List.set_set]
            rw [set_none_of_getD_none b i hv]
          · rw [if_neg hv, if_neg hv]
        · simp only [MiniMaxM, MiniMaxP, h, he, if_true]
          apply foldl_pair_eq
          intro v i _
          by_cases hv : b.getD i EPiece.None = EPiece.None
          · simp only [if_pos hv, ih (b.set i computerPiece) (depth + 1) i false,
              List.set_set]
            rw [set_none_of_getD_none b i hv]
          · rw [if_neg hv, if_neg hv]
      · simp [MiniMaxM, MiniMaxP, h, he]
    · simp [MiniMaxM, MiniMaxP, h]

theorem MiniMaxP_bounds :
    ∀ (fuel : Nat) (b : Board) (depth placedPiece : Nat) (isMax : Bool),
      -1 ≤ MiniMaxP fuel b depth placedPiece isMax ∧
        MiniMaxP fuel b depth placedPiece isMax ≤ 1 := by
  intro fuel
  induction fuel with
  | zero =>
    intro b depth p m
    rcases h : CheckWin b p with _ | w <;>
      simp only [MiniMaxP, h] <;> split_ifs <;> omega
  | succ fuel ih =>
    intro b depth p m
    rcases h : CheckWin b p with _ | w
    · by_cases he : hasEmpty b
      · obtain ⟨i0, hi0, hv0⟩ := (hasEmpty_iff b).mp he
        cases m
        · simp only [MiniMaxP, h, he, if_true, Bool.false_eq_true, if_false]
          constructor
          · exact foldl_min_ge _ _ (-1) _ 1000 (by omega)
              (fun i _ hp => (ih (b.set i playerPiece) (depth + 1) i true).1)
          · exact le_trans (foldl_min_le_elem _ _ _ 1000 i0 hi0 hv0)
              (ih (b.set i0 playerPiece) (depth + 1) i0 true).2
        · simp only [MiniMaxP, h, he, if_true]
          constructor
          · exact le_trans (ih (b.set i0 computerPiece) (depth + 1) i0 false).1
              (elem_le_foldl_max _ _ _ (-1000) i0 hi0 hv0)
          · exact foldl_max_le _ _ 1 _ (-1000) (by omega)
              (fun i _ hp => (ih (b.set i computerPiece) (depth + 1) i false).2)
      · simp [MiniMaxP, h, he]
    · simp only [MiniMaxP, h]
      split_ifs <;> omega

theorem MiniMax_eq_pure (b : Board) (depth placedPiece : Nat) (isMax : Bool) :
    MiniMax b depth placedPiece isMax =
      MiniMaxP (countEmpty b) b depth placedPiece isMax := by
  unfold MiniMax
  rw [MiniMaxM_eq_pure]

theorem MiniMax_bounds (b : Board) (depth placedPiece : Nat) (isMax : Bool) :
    -1 ≤ MiniMax b depth placedPiece isMax ∧ MiniMax b depth placedPiece isMax ≤ 1 := by
  rw [MiniMax_eq_pure]
  exact MiniMaxP_bounds (countEmpty b) b depth placedPiece isMax

theorem FindBestMoveM_eq_pure (b : Board) (piece : EPiece) :
    FindBestMoveM b piece =
      (scanBest (fun i => b.getD i EPiece.None = EPiece.None)
        (fun i => MiniMax (b.set i piece) 0 i false) 9, b) := by
  unfold FindBestMoveM scanBest
  apply foldl_pair_eq
  intro v i _
  by_cases hv : b.getD i EPiece.None = EPiece.None
  · simp only [if_pos hv]
    have hrest : (b.set i piece).set i EPiece.None = b := by
      rw [List.set_set, set_none_of_getD_none b i hv]
    by_cases hgt : MiniMax (b.set i piece) 0 i false > v.1 <;>
      simp only [if_pos, if_neg, hgt, if_true, if_false, hrest] <;> rfl
  · simp only [if_neg hv]

theorem FindBestMove_eq_scan (b : Board) (piece : EPiece) :
    FindBestMove b piece =
      (scanBest (fun i => b.getD i EPiece.None = EPiece.None)
        (fun i => MiniMax (b.set i piece) 0 i false) 9).2 := by
  unfold FindBestMove
  rw [FindBestMoveM_eq_pure]

theorem scanBest_succ (P : Nat → Prop) [DecidablePred P] (v : Nat → Int) (n : Nat) :
    scanBest P v (n + 1) =
      if P n then
        (if v n > (scanBest P v n).1 then (v n, (n : Int)) else scanBest P v n)
      else scanBest P v n := by
  unfold scanBest
  rw [List.range_succ, List.foldl_append, List.foldl_cons, List.foldl_nil]

theorem scanBest_spec (P : Nat → Prop) [DecidablePred P] (v : Nat → Int)
    (hv : ∀ i, P i → -1000 < v i) :
    ∀ (n : Nat),
      ((∀ i, i < n → ¬ P i) ∧ scanBest P v n = (-1000, -1)) ∨
      (∃ i0, i0 < n ∧ P i0 ∧ scanBest P v n = (v i0, (i0 : Int)) ∧
        (∀ j, j < n → P j → v j ≤ v i0) ∧ (∀ j, j < i0 → P j → v j < v i0)) := by
  intro n
  induction n with
  | zero => exact Or.inl ⟨fun i hi => absurd hi (by omega), rfl⟩
  | succ n ih =>
    rw [scanBest_succ]
    rcases ih with ⟨hnone, heq⟩ | ⟨i0, hi0, hP0, heq, hmax, hstrict⟩
    · by_cases hP : P n
      · rw [if_pos hP, heq, if_pos (by simpa using hv n hP)]
        refine Or.inr ⟨n, by omega, hP, rfl, ?_, ?_⟩
        · intro j hj hPj
          rcases Nat.lt_succ_iff_lt_or_eq.mp hj with hjn | rfl
          · exact absurd hPj (hnone j hjn)
          · exact le_refl _
        · intro j hj hPj
          exact absurd hPj (hnone j hj)
      · rw [if_neg hP, heq]
        refine Or.inl ⟨?_, rfl⟩
        intro i hi
        rcases Nat.lt_succ_iff_lt_or_eq.mp hi with hin | rfl
        · exact hnone i hin
        · exact hP
    · by_cases hP : P n
      · rw [if_pos hP, heq]
        by_cases hgt : v n > v i0
        · rw [if_pos (by simpa using hgt)]
          refine Or.inr ⟨n, by omega, hP, rfl, ?_, ?_⟩
          · intro j hj hPj
            rcases Nat.lt_succ_iff_lt_or_eq.mp hj with hjn | rfl
            · exact le_of_lt (lt_of_le_of_lt (hmax j hjn hPj) hgt)
            · exact le_refl _
          · intro j hj hPj
            exact lt_of_le_of_lt (hmax j hj hPj) hgt
        · rw [if_neg (by simpa using hgt)]
          refine Or.inr ⟨i0, by omega, hP0, rfl, ?_, hstrict⟩
          intro j hj hPj
          rcases Nat.lt_succ_iff_lt_or_eq.mp hj with hjn | rfl
          · exact hmax j hjn hPj
          · omega
      · rw [if_neg hP]
        refine Or.inr ⟨i0, by omega, hP0, heq, ?_, hstrict⟩
        intro j hj hPj
        rcases Nat.lt_succ_iff_lt_or_eq.mp hj with hjn | rfl
        · exact hmax j hjn hPj
        · exact absurd hPj hP

/-! ### Grid index arithmetic and ray algebra -/

theorem inGrid_idxPos (i : Nat) (h : i < 9) : inGrid (idxPos i) := by
  simp only [inGrid, idxPos]
  refine ⟨by omega, by omega, by omega, by omega⟩

theorem posIdx_idxPos (i : Nat) (h : i < 9) : posIdx (idxPos i) = i := by
  simp only [posIdx, idxPos]
  omega

theorem idxPos_posIdx (pos : Vi2d) (h : inGrid pos) : idxPos (posIdx pos) = pos := by
  obtain ⟨h1, h2, h3, h4⟩ := h
  apply Vi2d.extEq <;> simp only [idxPos, posIdx] <;> omega

theorem cellAt_idxPos (b : Board) (i : Nat) (h : i < 9) :
    cellAt b (idxPos i) = b.getD i EPiece.None := by
  unfold cellAt
  rw [posIdx_idxPos i h]

theorem vneg_vneg (d : Vi2d) : vneg (vneg d) = d := by
  apply Vi2d.extEq <;> simp [vneg]

theorem rayPt_back_on_run (q d : Vi2d) (j k : Nat) (h : k ≤ j) :
    rayPt (rayPt q (vneg d) j) d k = rayPt q (vneg d) (j - k) := by
  apply Vi2d.extEq <;> simp only [rayPt, vneg] <;> push_cast [Nat.cast_sub h] <;> ring

theorem rayPt_past_anchor (pos d : Vi2d) (j t : Nat) (h : j ≤ t) :
    rayPt (rayPt pos d j) (vneg d) t = rayPt pos (vneg d) (t - j) := by
  apply Vi2d.extEq <;> simp only [rayPt, vneg] <;> push_cast [Nat.cast_sub h] <;> ring

theorem rayPt_fwd (q d : Vi2d) (j k : Nat) :
    rayPt (rayPt q d j) d k = rayPt q d (j + k) := by
  apply Vi2d.extEq <;> simp only [rayPt] <;> push_cast <;> ring

theorem rayPt_within (pos d : Vi2d) (j t : Nat) (h : t ≤ j) :
    rayPt (rayPt pos d j) (vneg d) t = rayPt pos d (j - t) := by
  apply Vi2d.extEq <;> simp only [rayPt, vneg] <;> push_cast [Nat.cast_sub h] <;> ring

theorem CheckLine_sound (b : Board) (p : EPiece) (d pos : Vi2d) (k : Nat)
    (hk : k < CheckLine b p pos d) :
    inGrid (rayPt pos d k) ∧ cellAt b (rayPt pos d k) = p :=
  CheckLineF_sound b p d 4 pos k hk

/-! ### The `CheckWin` guards in terms of `lineTotal` -/

theorem vneg_h : vneg ⟨-1, 0⟩ = (⟨1, 0⟩ : Vi2d) := by
  apply Vi2d.extEq <;> simp [vneg]

theorem vneg_v : vneg ⟨0, -1⟩ = (⟨0, 1⟩ : Vi2d) := by
  apply Vi2d.extEq <;> simp [vneg]

theorem vneg_d1 : vneg ⟨-1, -1⟩ = (⟨1, 1⟩ : Vi2d) := by
  apply Vi2d.extEq <;> simp [vneg]

theorem vneg_d2 : vneg ⟨-1, 1⟩ = (⟨1, -1⟩ : Vi2d) := by
  apply Vi2d.extEq <;> simp [vneg]

theorem vadd_h (pos : Vi2d) : vadd pos ⟨1, 0⟩ = (⟨pos.x + 1, pos.y⟩ : Vi2d) := by
  apply Vi2d.extEq <;> simp [vadd]

theorem vadd_v (pos : Vi2d) : vadd pos ⟨0, 1⟩ = (⟨pos.x, pos.y + 1⟩ : Vi2d) := by
  apply Vi2d.extEq <;> simp [vadd]

theorem vadd_d1 (pos : Vi2d) : vadd pos ⟨1, 1⟩ = (⟨pos.x + 1, pos.y + 1⟩ : Vi2d) := by
  apply Vi2d.extEq <;> simp [vadd]

theorem vadd_d2 (pos : Vi2d) : vadd pos ⟨1, -1⟩ = (⟨pos.x + 1, pos.y - 1⟩ : Vi2d) := by
  apply Vi2d.extEq <;> simp [vadd]
  omega

theorem CheckWin_eq (b : Board) (i : Nat) :
    CheckWin b i =
      (if 3 ≤ lineTotal b (b.getD i EPiece.None) (idxPos i) ⟨-1, 0⟩ then
        some ⟨b.getD i EPiece.None, idxPos i, ⟨-1, 0⟩⟩
      else if 3 ≤ lineTotal b (b.getD i EPiece.None) (idxPos i) ⟨0, -1⟩ then
        some ⟨b.getD i EPiece.None, idxPos i, ⟨0, -1⟩⟩
      else if 3 ≤ lineTotal b (b.getD i EPiece.None) (idxPos i) ⟨-1, -1⟩ then
        some ⟨b.getD i EPiece.None, idxPos i, ⟨-1, -1⟩⟩
      else if 3 ≤ lineTotal b (b.getD i EPiece.None) (idxPos i) ⟨-1, 1⟩ then
        some ⟨b.getD i EPiece.None, idxPos i, ⟨-1, 1⟩⟩
      else none) := by
  unfold CheckWin
  simp only [lineTotal, vneg_h, vneg_v, vneg_d1, vneg_d2, vadd_h, vadd_v, vadd_d1,
    vadd_d2, piecesToWin, ge_iff_le]

/-! ### Runs and line totals -/

theorem runLen_le (b : Board) (p : EPiece) (q d : Vi2d) (L : Nat)
    (hd : d ∈ negDirs) (hrun : isRun b p q d L) : L ≤ 3 := by
  by_contra hL
  have h0 := (hrun 0 (by omega)).1
  have h3 := (hrun 3 (by omega)).1
  fin_cases hd <;>
    (simp only [rayPt, vneg, inGrid] at h0 h3; omega)

theorem lineTotal_of_run (b : Board) (p : EPiece) (q d : Vi2d) (L j : Nat)
    (hd : d ∈ negDirs) (hL : 3 ≤ L) (hrun : isRun b p q d L) (hj : j < L) :
    L ≤ lineTotal b p (rayPt q (vneg d) j) d := by
  have hL3 := runLen_le b p q d L hd hrun
  have hfirst : j + 1 ≤ CheckLine b p (rayPt q (vneg d) j) d := by
    apply CheckLineF_complete b p d (j + 1) 4 _ (by omega)
    intro k hk
    rw [rayPt_back_on_run q d j k (by omega)]
    exact hrun (j - k) (by omega)
  have hsecond : L - 1 - j ≤
      CheckLine b p (vadd (rayPt q (vneg d) j) (vneg d)) (vneg d) := by
    apply CheckLineF_complete b p (vneg d) (L - 1 - j) 4 _ (by omega)
    intro k hk
    rw [rayPt_succ, rayPt_fwd]
    exact hrun (j + (k + 1)) (by omega)
  unfold lineTotal
  omega

theorem lineTotal_run_exists (b : Board) (p : EPiece) (pos d : Vi2d)
    (hin : inGrid pos) (hc : cellAt b pos = p) (h3 : 3 ≤ lineTotal b p pos d) :
    ∃ (q : Vi2d) (L j : Nat), 3 ≤ L ∧ j < L ∧ isRun b p q d L ∧
      rayPt q (vneg d) j = pos := by
  have ha1 : 1 ≤ CheckLine b p pos d := by
    apply CheckLineF_complete b p d 1 4 pos (by omega)
    intro k hk
    obtain rfl : k = 0 := by omega
    rw [rayPt_zero]
    exact ⟨hin, hc⟩
  refine ⟨rayPt pos d (CheckLine b p pos d - 1),
    CheckLine b p pos d + CheckLine b p (vadd pos (vneg d)) (vneg d),
    CheckLine b p pos d - 1, ?_, by omega, ?_, ?_⟩
  · unfold lineTotal at h3
    omega
  · intro t ht
    by_cases hta : t ≤ CheckLine b p pos d - 1
    · rw [rayPt_within pos d (CheckLine b p pos d - 1) t hta]
      exact CheckLine_sound b p d pos (CheckLine b p pos d - 1 - t) (by omega)
    · rw [rayPt_past_anchor pos d (CheckLine b p pos d - 1) t (by omega)]
      have hsplit : t - (CheckLine b p pos d - 1) =
          (t - CheckLine b p pos d) + 1 := by omega
      rw [hsplit, ← rayPt_succ]
      exact CheckLine_sound b p (vneg d) (vadd pos (vneg d))
        (t - CheckLine b p pos d) (by omega)
  · rw [rayPt_past_anchor pos d (CheckLine b p pos d - 1)
      (CheckLine b p pos d - 1) (by omega)]
    simp only [Nat.sub_self]
    exact rayPt_zero pos (vneg d)

/-! ### Soundness of the pruned bound checkers -/

theorem searchOrder_mem : ∀ i, i ∈ List.range 9 → i ∈ searchOrder := by decide

theorem searchOrder_sub : ∀ i, i ∈ searchOrder → i ∈ List.range 9 := by decide

theorem ubCheck_zero_win (b : Board) (p : Nat) (m : Bool) (c : Int)
    (w : WinningMove) (hw : CheckWin b p = some w) :
    ubCheck 0 b p m c =
      decide ((if w.piece = computerPiece then (1 : Int) else -1) ≤ c) := by
  simp only [ubCheck, hw]

theorem ubCheck_zero_none (b : Board) (p : Nat) (m : Bool) (c : Int)
    (hw : CheckWin b p = none) :
    ubCheck 0 b p m c = (if hasEmpty b then false else decide ((0 : Int) ≤ c)) := by
  simp only [ubCheck, hw]

theorem ubCheck_succ_win (fuel : Nat) (b : Board) (p : Nat) (m : Bool) (c : Int)
    (w : WinningMove) (hw : CheckWin b p = some w) :
    ubCheck (fuel + 1) b p m c =
      decide ((if w.piece = computerPiece then (1 : Int) else -1) ≤ c) := by
  simp only [ubCheck, hw]

theorem ubCheck_succ_none (fuel : Nat) (b : Board) (p : Nat) (m : Bool) (c : Int)
    (hw : CheckWin b p = none) :
    ubCheck (fuel + 1) b p m c =
      (if hasEmpty b then
        if m then
          searchOrder.all fun i =>
            !(decide (b.getD i EPiece.None = EPiece.None)) ||
              ubCheck fuel (b.set i computerPiece) i false c
        else
          searchOrder.any fun i =>
            decide (b.getD i EPiece.None = EPiece.None) &&
              ubCheck fuel (b.set i playerPiece) i true c
      else decide ((0 : Int) ≤ c)) := by
  simp only [ubCheck, hw]

theorem lbCheck_zero_win (b : Board) (p : Nat) (m : Bool) (c : Int)
    (w : WinningMove) (hw : CheckWin b p = some w) :
    lbCheck 0 b p m c =
      decide (c ≤ (if w.piece = computerPiece then (1 : Int) else -1)) := by
  simp only [lbCheck, hw]

theorem lbCheck_zero_none (b : Board) (p : Nat) (m : Bool) (c : Int)
    (hw : CheckWin b p = none) :
    lbCheck 0 b p m c = (if hasEmpty b then false else decide (c ≤ (0 : Int))) := by
  simp only [lbCheck, hw]

theorem lbCheck_succ_win (fuel : Nat) (b : Board) (p : Nat) (m : Bool) (c : Int)
    (w : WinningMove) (hw : CheckWin b p = some w) :
    lbCheck (fuel + 1) b p m c =
      decide (c ≤ (if w.piece = computerPiece then (1 : Int) else -1)) := by
  simp only [lbCheck, hw]

theorem lbCheck_succ_none (fuel : Nat) (b : Board) (p : Nat) (m : Bool) (c : Int)
    (hw : CheckWin b p = none) :
    lbCheck (fuel + 1) b p m c =
      (if hasEmpty b then
        if m then
          searchOrder.any fun i =>
            decide (b.getD i EPiece.None = EPiece.None) &&
              lbCheck fuel (b.set i computerPiece) i false c
        else
          searchOrder.all fun i =>
            !(decide (b.getD i EPiece.None = EPiece.None)) ||
              lbCheck fuel (b.set i playerPiece) i true c
      else decide (c ≤ (0 : Int))) := by
  simp only [lbCheck, hw]

theorem ubCheck_sound :
    ∀ (fuel : Nat) (b : Board) (p : Nat) (m : Bool) (c : Int), -1000 ≤ c →
      ubCheck fuel b p m c = true →
      ∀ depth, MiniMaxP fuel b depth p m ≤ c := by
  intro fuel
  induction fuel with
  | zero =>
    intro b p m c hc h depth
    rcases hw : CheckWin b p with _ | w
    · rw [ubCheck_zero_none b p m c hw] at h
      simp only [MiniMaxP, hw]
      by_cases he : hasEmpty b
      · rw [if_pos he] at h
        exact absurd h (by simp)
      · rw [if_neg he] at h
        rw [if_neg he]
        exact of_decide_eq_true h
    · rw [ubCheck_zero_win b p m c w hw] at h
      simp only [MiniMaxP, hw]
      exact of_decide_eq_true h
  | succ fuel ih =>
    intro b p m c hc h depth
    rcases hw : CheckWin b p with _ | w
    · rw [ubCheck_succ_none fuel b p m c hw] at h
      by_cases he : hasEmpty b
      · rw [if_pos he] at h
        cases m with
        | false =>
          rw [if_neg (by simp)] at h
          simp only [MiniMaxP, hw, he, if_true, Bool.false_eq_true, if_false]
          obtain ⟨i, hi, hib⟩ := List.any_eq_true.mp h
          have hempty : b.getD i EPiece.None = EPiece.None := by
            cases hd : decide (b.getD i EPiece.None = EPiece.None) with
            | false => rw [hd] at hib; simp at hib
            | true => exact of_decide_eq_true hd
          have hcheck : ubCheck fuel (b.set i playerPiece) i true c = true := by
            rw [decide_eq_true hempty] at hib
            simpa using hib
          have hchild := ih (b.set i playerPiece) i true c hc hcheck (depth + 1)
          exact le_trans
            (foldl_min_le_elem _ _ _ 1000 i (searchOrder_sub i hi) hempty) hchild
        | true =>
          rw [if_pos rfl] at h
          simp only [MiniMaxP, hw, he, if_true]
          apply foldl_max_le _ _ c _ (-1000) hc
          intro i hi hempty
          have hall := List.all_eq_true.mp h i (searchOrder_mem i hi)
          rw [decide_eq_true hempty] at hall
          simp only [Bool.not_true, Bool.false_or] at hall
          exact ih (b.set i computerPiece) i false c hc hall (depth + 1)
      · rw [if_neg he] at h
        simp only [MiniMaxP, hw, he, Bool.false_eq_true, if_false]
        exact of_decide_eq_true h
    · rw [ubCheck_succ_win fuel b p m c w hw] at h
      simp only [MiniMaxP, hw]
      exact of_decide_eq_true h

theorem lbCheck_sound :
    ∀ (fuel : Nat) (b : Board) (p : Nat) (m : Bool) (c : Int), c ≤ 1000 →
      lbCheck fuel b p m c = true →
      ∀ depth, c ≤ MiniMaxP fuel b depth p m := by
  intro fuel
  induction fuel with
  | zero =>
    intro b p m c hc h depth
    rcases hw : CheckWin b p with _ | w
    · rw [lbCheck_zero_none b p m c hw] at h
      simp only [MiniMaxP, hw]
      by_cases he : hasEmpty b
      · rw [if_pos he] at h
        exact absurd h (by simp)
      · rw [if_neg he] at h
        rw [if_neg he]
        exact of_decide_eq_true h
    · rw [lbCheck_zero_win b p m c w hw] at h
      simp only [MiniMaxP, hw]
      exact of_decide_eq_true h
  | succ fuel ih =>
    intro b p m c hc h depth
    rcases hw : CheckWin b p with _ | w
    · rw [lbCheck_succ_none fuel b p m c hw] at h
      by_cases he : hasEmpty b
      · rw [if_pos he] at h
        cases m with
        | false =>
          rw [if_neg (by simp)] at h
          simp only [MiniMaxP, hw, he, if_true, Bool.false_eq_true, if_false]
          apply foldl_min_ge _ _ c _ 1000 hc
          intro i hi hempty
          have hall := List.all_eq_true.mp h i (searchOrder_mem i hi)
          rw [decide_eq_true hempty] at hall
          simp only [Bool.not_true, Bool.false_or] at hall
          exact ih (b.set i playerPiece) i true c hc hall (depth + 1)
        | true =>
          rw [if_pos rfl] at h
          simp only [MiniMaxP, hw, he, if_true]
          obtain ⟨i, hi, hib⟩ := List.any_eq_true.mp h
          have hempty : b.getD i EPiece.None = EPiece.None := by
            cases hd : decide (b.getD i EPiece.None = EPiece.None) with
            | false => rw [hd] at hib; simp at hib
            | true => exact of_decide_eq_true hd
          have hcheck : lbCheck fuel (b.set i computerPiece) i false c = true := by
            rw [decide_eq_true hempty] at hib
            simpa using hib
          have hchild := ih (b.set i computerPiece) i false c hc hcheck (depth + 1)
          exact le_trans hchild
            (elem_le_foldl_max _ _ _ (-1000) i (searchOrder_sub i hi) hempty)
      · rw [if_neg he] at h
        simp only [MiniMaxP, hw, he, Bool.false_eq_true, if_false]
        exact of_decide_eq_true h
    · rw [lbCheck_succ_win fuel b p m c w hw] at h
      simp only [MiniMaxP, hw]
      exact of_decide_eq_true h

/-! ### Counting non-empty cells -/

theorem countP_congrList :
    ∀ (l : List Nat) (f g : Nat → Bool), (∀ j, j ∈ l → f j = g j) →
      l.countP f = l.countP g := by
  intro l
  induction l with
  | nil => intro f g _; rfl
  | cons a t ih =>
    intro f g h
    rw [List.countP_cons, List.countP_cons, h a (by simp),
      ih f g (fun j hj => h j (by simp [hj]))]

theorem countP_update :
    ∀ (l : List Nat), l.Nodup → ∀ (i : Nat), i ∈ l → ∀ (f g : Nat → Bool),
      (∀ j, j ∈ l → j ≠ i → g j = f j) → f i = false → g i = true →
      l.countP g = l.countP f + 1 := by
  intro l
  induction l with
  | nil => intro _ i hi; simp at hi
  | cons a t ih =>
    intro hnd i hi f g hfg hfi hgi
    obtain ⟨hat, hndt⟩ := List.nodup_cons.mp hnd
    rw [List.countP_cons, List.countP_cons]
    rcases List.mem_cons.mp hi with rfl | hit
    · rw [hgi, hfi]
      rw [countP_congrList t g f (fun j hj => hfg j (by simp [hj])
        (fun hji => hat (hji ▸ hj)))]
      simp
    · rw [hfg a (by simp) (fun hai => hat (hai ▸ hit))]
      rw [ih hndt i hit f g (fun j hj hji => hfg j (by simp [hj]) hji) hfi hgi]
      omega

theorem posIdx_lt (pos : Vi2d) (h : inGrid pos) : posIdx pos < 9 := by
  obtain ⟨h1, h2, h3, h4⟩ := h
  simp only [posIdx]
  omega

theorem countNonEmpty_set (b : Board) (i : Nat) (p : EPiece)
    (hlen : b.length = 9) (hi : i < 9)
    (hempty : b.getD i EPiece.None = EPiece.None) (hp : p ≠ EPiece.None) :
    countNonEmpty (b.set i p) = countNonEmpty b + 1 := by
  unfold countNonEmpty
  apply countP_update (List.range 9) (List.nodup_range 9) i (List.mem_range.mpr hi)
  · intro j _ hji
    rw [getD_set_ne b i j p EPiece.None (fun h => hji h.symm)]
  · exact decide_eq_false (fun h => h hempty)
  · exact decide_eq_true (by
      rw [getD_set_self b i p EPiece.None (by omega)]
      exact hp)

/-! ### Cells of the one-Cross board -/

theorem boardOneX_cross_only (pos : Vi2d) (hin : inGrid pos)
    (hc : cellAt boardOneX pos = EPiece.Cross) : pos = ⟨0, 0⟩ := by
  have hk : posIdx pos < 9 := posIdx_lt pos hin
  have hpos := idxPos_posIdx pos hin
  rw [← hpos]
  have hc2 : boardOneX.getD (posIdx pos) EPiece.None = EPiece.Cross := hc
  set k := posIdx pos with hkdef
  clear hkdef hpos hc hin
  interval_cases k <;> first | (exact absurd hc2 (by decide)) | decide

/-! ### Kernel-checked score bounds for the nine opening moves -/

theorem ubEmpty0 : ubCheck (countEmpty (boardEmpty.set 0 computerPiece))
    (boardEmpty.set 0 computerPiece) 0 false 0 = true := by decide!

theorem ubEmpty1 : ubCheck (countEmpty (boardEmpty.set 1 computerPiece))
    (boardEmpty.set 1 computerPiece) 1 false 0 = true := by decide!

theorem ubEmpty2 : ubCheck (countEmpty (boardEmpty.set 2 computerPiece))
    (boardEmpty.set 2 computerPiece) 2 false 0 = true := by decide!

theorem ubEmpty3 : ubCheck (countEmpty (boardEmpty.set 3 computerPiece))
    (boardEmpty.set 3 computerPiece) 3 false 0 = true := by decide!

theorem ubEmpty4 : ubCheck (countEmpty (boardEmpty.set 4 computerPiece))
    (boardEmpty.set 4 computerPiece) 4 false 0 = true := by decide!

theorem ubEmpty5 : ubCheck (countEmpty (boardEmpty.set 5 computerPiece))
    (boardEmpty.set 5 computerPiece) 5 false 0 = true := by decide!

theorem ubEmpty6 : ubCheck (countEmpty (boardEmpty.set 6 computerPiece))
    (boardEmpty.set 6 computerPiece) 6 false 0 = true := by decide!

theorem ubEmpty7 : ubCheck (countEmpty (boardEmpty.set 7 computerPiece))
    (boardEmpty.set 7 computerPiece) 7 false 0 = true := by decide!

theorem ubEmpty8 : ubCheck (countEmpty (boardEmpty.set 8 computerPiece))
    (boardEmpty.set 8 computerPiece) 8 false 0 = true := by decide!

theorem lbEmpty0 : lbCheck (countEmpty (boardEmpty.set 0 computerPiece))
    (boardEmpty.set 0 computerPiece) 0 false 0 = true := by decide!

theorem lbEmpty4 : lbCheck (countEmpty (boardEmpty.set 4 computerPiece))
    (boardEmpty.set 4 computerPiece) 4 false 0 = true := by decide!

/-! ### Evaluation of the empty-board search -/

theorem moveValEmpty_le_zero (j : Nat) (hj : j < 9) :
    MiniMax (boardEmpty.set j computerPiece) 0 j false ≤ 0 := by
  interval_cases j
  · rw [MiniMax_eq_pure]
    exact ubCheck_sound _ _ _ _ 0 (by omega) ubEmpty0 0
  · rw [MiniMax_eq_pure]
    exact ubCheck_sound _ _ _ _ 0 (by omega) ubEmpty1 0
  · rw [MiniMax_eq_pure]
    exact ubCheck_sound _ _ _ _ 0 (by omega) ubEmpty2 0
  · rw [MiniMax_eq_pure]
    exact ubCheck_sound _ _ _ _ 0 (by omega) ubEmpty3 0
  · rw [MiniMax_eq_pure]
    exact ubCheck_sound _ _ _ _ 0 (by omega) ubEmpty4 0
  · rw [MiniMax_eq_pure]
    exact ubCheck_sound _ _ _ _ 0 (by omega) ubEmpty5 0
  · rw [MiniMax_eq_pure]
    exact ubCheck_sound _ _ _ _ 0 (by omega) ubEmpty6 0
  · rw [MiniMax_eq_pure]
    exact ubCheck_sound _ _ _ _ 0 (by omega) ubEmpty7 0
  · rw [MiniMax_eq_pure]
    exact ubCheck_sound _ _ _ _ 0 (by omega) ubEmpty8 0

theorem moveValEmpty0 : MiniMax (boardEmpty.set 0 computerPiece) 0 0 false = 0 := by
  apply le_antisymm (moveValEmpty_le_zero 0 (by omega))
  rw [MiniMax_eq_pure]
  exact lbCheck_sound _ _ _ _ 0 (by omega) lbEmpty0 0

theorem moveValEmpty4 : MiniMax (boardEmpty.set 4 computerPiece) 0 4 false = 0 := by
  apply le_antisymm (moveValEmpty_le_zero 4 (by omega))
  rw [MiniMax_eq_pure]
  exact lbCheck_sound _ _ _ _ 0 (by omega) lbEmpty4 0

theorem findBestMove_empty : FindBestMove boardEmpty computerPiece = 0 := by
  have hv : ∀ i, (boardEmpty.getD i EPiece.None = EPiece.None) →
      -1000 < MiniMax (boardEmpty.set i computerPiece) 0 i false := by
    intro i _
    have := (MiniMax_bounds (boardEmpty.set i computerPiece) 0 i false).1
    omega
  rcases scanBest_spec _ _ hv 9 with ⟨hnone, _⟩ | ⟨i0, hi0, hP0, heq, hmax, hstrict⟩
  · exact absurd (show boardEmpty.getD 0 EPiece.None = EPiece.None by decide)
      (hnone 0 (by omega))
  · have hi00 : i0 = 0 := by
      by_contra hne
      have h0 := hstrict 0 (by omega)
        (show boardEmpty.getD 0 EPiece.None = EPiece.None by decide)
      have hle := moveValEmpty_le_zero i0 hi0
      rw [moveValEmpty0] at h0
      omega
    subst hi00
    rw [FindBestMove_eq_scan, heq]
    simp

/-! ### Claim theorems -/

/-- C1 (counterexample): on a board where a horizontal-family and a
vertical-family winning run cross at index 4, the run `{3,4,5}` (family
`(0,-1)`, anchored at index 3) passes through index 4, yet `CheckWin` returns
direction `(-1,0)` — a different family — and anchors the move at the placed
cell `(1,1)`, not at the run's extremal cell `(1,0)`.  So the claim as stated
fails. -/
theorem C1_counterexample :
    isRun boardPlus EPiece.Cross ⟨1, 0⟩ ⟨0, -1⟩ 3 ∧
    posIdx (rayPt ⟨1, 0⟩ (vneg ⟨0, -1⟩) 1) = 4 ∧
    CheckWin boardPlus 4 = some ⟨EPiece.Cross, ⟨1, 1⟩, ⟨-1, 0⟩⟩ ∧
    (⟨-1, 0⟩ : Vi2d) ≠ (⟨0, -1⟩ : Vi2d) ∧
    (⟨1, 1⟩ : Vi2d) ≠ (⟨1, 0⟩ : Vi2d) :=
  ⟨by decide, by decide, by decide, by decide, by decide⟩

/-- C1 (amended): for every board containing a same-piece run of length ≥
`piecesToWin` along one of the four families, `CheckWin` called with any index
on that run returns some WinningMove; its piece is the run's piece, its
position is the queried cell itself (not the run's extremal cell), and its
direction is the negative representative of the highest-priority family whose
contiguous count through the queried cell reaches `piecesToWin` (which is the
run's family whenever no earlier family also wins there). -/
theorem C1_run_detected (b : Board) (p : EPiece) (q d : Vi2d) (L j : Nat)
    (hd : d ∈ negDirs) (hL : 3 ≤ L) (hrun : isRun b p q d L) (hj : j < L) :
    ∃ wm, CheckWin b (posIdx (rayPt q (vneg d) j)) = some wm ∧
      wm.piece = p ∧ wm.position = rayPt q (vneg d) j ∧
      wm.direction ∈ negDirs ∧
      3 ≤ lineTotal b p (rayPt q (vneg d) j) wm.direction ∧
      ∀ d', d' ∈ negDirs → 3 ≤ lineTotal b p (rayPt q (vneg d) j) d' →
        dirRank wm.direction ≤ dirRank d' := by
  obtain ⟨hgrid, hcp⟩ := hrun j hj
  have hgd : b.getD (posIdx (rayPt q (vneg d) j)) EPiece.None = p := hcp
  have hidx : idxPos (posIdx (rayPt q (vneg d) j)) = rayPt q (vneg d) j :=
    idxPos_posIdx _ hgrid
  have htot : 3 ≤ lineTotal b p (rayPt q (vneg d) j) d :=
    le_trans hL (lineTotal_of_run b p q d L j hd hL hrun hj)
  rw [CheckWin_eq, hgd, hidx]
  generalize hgen : rayPt q (vneg d) j = pos at htot ⊢
  by_cases h1 : 3 ≤ lineTotal b p pos ⟨-1, 0⟩
  · rw [if_pos h1]
    refine ⟨⟨p, pos, ⟨-1, 0⟩⟩, rfl, rfl, rfl,
      show (⟨-1, 0⟩ : Vi2d) ∈ negDirs by decide, h1, ?_⟩
    intro d' _ _
    show dirRank ⟨-1, 0⟩ ≤ dirRank d'
    rw [show dirRank ⟨-1, 0⟩ = 0 from by decide]
    exact Nat.zero_le _
  · rw [if_neg h1]
    by_cases h2 : 3 ≤ lineTotal b p pos ⟨0, -1⟩
    · rw [if_pos h2]
      refine ⟨⟨p, pos, ⟨0, -1⟩⟩, rfl, rfl, rfl,
        show (⟨0, -1⟩ : Vi2d) ∈ negDirs by decide, h2, ?_⟩
      intro d' hd' ht'
      show dirRank ⟨0, -1⟩ ≤ dirRank d'
      fin_cases hd'
      · exact absurd ht' h1
      · decide
      · decide
      · decide
    · rw [if_neg h2]
      by_cases h3 : 3 ≤ lineTotal b p pos ⟨-1, -1⟩
      · rw [if_pos h3]
        refine ⟨⟨p, pos, ⟨-1, -1⟩⟩, rfl, rfl, rfl,
          show (⟨-1, -1⟩ : Vi2d) ∈ negDirs by decide, h3, ?_⟩
        intro d' hd' ht'
        show dirRank ⟨-1, -1⟩ ≤ dirRank d'
        fin_cases hd'
        · exact absurd ht' h1
        · exact absurd ht' h2
        · decide
        · decide
      · rw [if_neg h3]
        by_cases h4 : 3 ≤ lineTotal b p pos ⟨-1, 1⟩
        · rw [if_pos h4]
          refine ⟨⟨p, pos, ⟨-1, 1⟩⟩, rfl, rfl, rfl,
            show (⟨-1, 1⟩ : Vi2d) ∈ negDirs by decide, h4, ?_⟩
          intro d' hd' ht'
          show dirRank ⟨-1, 1⟩ ≤ dirRank d'
          fin_cases hd'
          · exact absurd ht' h1
          · exact absurd ht' h2
          · exact absurd ht' h3
          · decide
        · exfalso
          fin_cases hd
          · exact absurd htot h1
          · exact absurd htot h2
          · exact absurd htot h3
          · exact absurd htot h4

/-- C1 (witness): the amended theorem applied to the vertical-family run
`{0,1,2}` of Crosses on the scenario board, queried at index 1. -/
theorem C1_run_detected_witness :
    (⟨0, -1⟩ : Vi2d) ∈ negDirs ∧ isRun boardC5b EPiece.Cross ⟨0, 0⟩ ⟨0, -1⟩ 3 ∧
    (∃ wm, CheckWin boardC5b (posIdx (rayPt ⟨0, 0⟩ (vneg ⟨0, -1⟩) 1)) = some wm ∧
      wm.piece = EPiece.Cross ∧ wm.position = rayPt ⟨0, 0⟩ (vneg ⟨0, -1⟩) 1 ∧
      wm.direction ∈ negDirs ∧
      3 ≤ lineTotal boardC5b EPiece.Cross (rayPt ⟨0, 0⟩ (vneg ⟨0, -1⟩) 1)
        wm.direction ∧
      ∀ d', d' ∈ negDirs →
        3 ≤ lineTotal boardC5b EPiece.Cross (rayPt ⟨0, 0⟩ (vneg ⟨0, -1⟩) 1) d' →
          dirRank wm.direction ≤ dirRank d') :=
  ⟨by decide, by decide,
    C1_run_detected boardC5b EPiece.Cross ⟨0, 0⟩ ⟨0, -1⟩ 3 1 (by decide) (by omega)
      (by decide) (by omega)⟩

/-- C2: if the placed cell does not lie on a contiguous same-piece run of
length at least `piecesToWin` in any of the four direction families, then
`CheckWin` at that index returns `none`. -/
theorem C2_no_run_none (b : Board) (i : Nat) (hi : i < 9)
    (hno : ∀ d, d ∈ negDirs → ∀ (q : Vi2d) (L j : Nat), 3 ≤ L → j < L →
      isRun b (b.getD i EPiece.None) q d L → rayPt q (vneg d) j ≠ idxPos i) :
    CheckWin b i = none := by
  rw [CheckWin_eq]
  have hgrid := inGrid_idxPos i hi
  have hcell : cellAt b (idxPos i) = b.getD i EPiece.None := cellAt_idxPos b i hi
  have key : ∀ d, d ∈ negDirs →
      ¬ (3 ≤ lineTotal b (b.getD i EPiece.None) (idxPos i) d) := by
    intro d hd h3
    obtain ⟨q, L, j, hL, hj, hrun, heq⟩ :=
      lineTotal_run_exists b (b.getD i EPiece.None) (idxPos i) d hgrid hcell h3
    exact hno d hd q L j hL hj hrun heq
  rw [if_neg (key ⟨-1, 0⟩ (by decide)), if_neg (key ⟨0, -1⟩ (by decide)),
    if_neg (key ⟨-1, -1⟩ (by decide)), if_neg (key ⟨-1, 1⟩ (by decide))]

/-- C2 (witness): on the board with a single Cross at index 0 there is no run
of length ≥ 3 through index 0, and `CheckWin` indeed returns `none`. -/
theorem C2_no_run_none_witness : CheckWin boardOneX 0 = none := by
  apply C2_no_run_none boardOneX 0 (by omega)
  intro d hd q L j hL hj hrun heq
  have h0 := hrun 0 (by omega)
  have h1 := hrun 1 (by omega)
  rw [rayPt_zero] at h0
  have hA : cellAt boardOneX q = EPiece.Cross := h0.2
  have hB : cellAt boardOneX (rayPt q (vneg d) 1) = EPiece.Cross := h1.2
  have hq : q = ⟨0, 0⟩ := boardOneX_cross_only q h0.1 hA
  have hq1 : rayPt q (vneg d) 1 = ⟨0, 0⟩ := boardOneX_cross_only _ h1.1 hB
  subst hq
  fin_cases hd <;> simp [rayPt, vneg] at hq1

/-- C3: for every board with at least one Empty cell and every mover piece,
`FindBestMove` returns the smallest empty-cell index whose `MiniMax` score is
maximal over all empty cells (ties broken toward the first index by the
strict `>` comparison in the scan). -/
theorem C3_first_argmax (b : Board) (piece : EPiece)
    (he : ∃ i, i < 9 ∧ b.getD i EPiece.None = EPiece.None) :
    ∃ iN : Nat, FindBestMove b piece = (iN : Int) ∧ iN < 9 ∧
      b.getD iN EPiece.None = EPiece.None ∧
      (∀ j, j < 9 → b.getD j EPiece.None = EPiece.None →
        MiniMax (b.set j piece) 0 j false ≤ MiniMax (b.set iN piece) 0 iN false) ∧
      (∀ j, j < iN → b.getD j EPiece.None = EPiece.None →
        MiniMax (b.set j piece) 0 j false < MiniMax (b.set iN piece) 0 iN false) := by
  have hv : ∀ i, (b.getD i EPiece.None = EPiece.None) →
      -1000 < MiniMax (b.set i piece) 0 i false := by
    intro i _
    have := (MiniMax_bounds (b.set i piece) 0 i false).1
    omega
  rcases scanBest_spec _ _ hv 9 with ⟨hnone, _⟩ | ⟨i0, hi0, hP0, heq, hmax, hstrict⟩
  · obtain ⟨i, hi, hemp⟩ := he
    exact absurd hemp (hnone i hi)
  · refine ⟨i0, ?_, hi0, hP0, fun j hj hPj => hmax j hj hPj,
      fun j hj hPj => hstrict j hj hPj⟩
    rw [FindBestMove_eq_scan, heq]

/-- C3 (witness): the argmax characterization applied to a board with a
single empty cell. -/
theorem C3_first_argmax_witness :
    (∃ i, i < 9 ∧ boardOneEmpty.getD i EPiece.None = EPiece.None) ∧
    (∃ iN : Nat, FindBestMove boardOneEmpty computerPiece = (iN : Int) ∧ iN < 9 ∧
      boardOneEmpty.getD iN EPiece.None = EPiece.None ∧
      (∀ j, j < 9 → boardOneEmpty.getD j EPiece.None = EPiece.None →
        MiniMax (boardOneEmpty.set j computerPiece) 0 j false ≤
          MiniMax (boardOneEmpty.set iN computerPiece) 0 iN false) ∧
      (∀ j, j < iN → boardOneEmpty.getD j EPiece.None = EPiece.None →
        MiniMax (boardOneEmpty.set j computerPiece) 0 j false <
          MiniMax (boardOneEmpty.set iN computerPiece) 0 iN false)) :=
  ⟨by decide, C3_first_argmax boardOneEmpty computerPiece (by decide)⟩

/-- C4: `FindBestMove` returns the sentinel `-1` iff the board has no Empty
cell among indices `0..8`; otherwise it returns an index in `[0, 9)` whose
cell is Empty in the input board. -/
theorem C4_sentinel (b : Board) (piece : EPiece) :
    (FindBestMove b piece = -1 ↔
      ¬ ∃ i, i < 9 ∧ b.getD i EPiece.None = EPiece.None) ∧
    (FindBestMove b piece ≠ -1 →
      0 ≤ FindBestMove b piece ∧ FindBestMove b piece < 9 ∧
        b.getD (FindBestMove b piece).toNat EPiece.None = EPiece.None) := by
  have hv : ∀ i, (b.getD i EPiece.None = EPiece.None) →
      -1000 < MiniMax (b.set i piece) 0 i false := by
    intro i _
    have := (MiniMax_bounds (b.set i piece) 0 i false).1
    omega
  rcases scanBest_spec _ _ hv 9 with ⟨hnone, heq⟩ | ⟨i0, hi0, hP0, heq, _, _⟩
  · have hfb : FindBestMove b piece = -1 := by
      rw [FindBestMove_eq_scan, heq]
    refine ⟨⟨fun _ => ?_, fun _ => hfb⟩, fun hne => absurd hfb hne⟩
    rintro ⟨i, hi, hemp⟩
    exact absurd hemp (hnone i hi)
  · have hfb : FindBestMove b piece = (i0 : Int) := by
      rw [FindBestMove_eq_scan, heq]
    refine ⟨⟨fun h => ?_, fun hne => absurd ⟨i0, hi0, hP0⟩ hne⟩, fun _ => ?_⟩
    · rw [hfb] at h
      omega
    · rw [hfb]
      refine ⟨by omega, by omega, ?_⟩
      simpa using hP0

/-- C4 (witness): on a board with one empty cell the returned move is
in-range and lands on the empty cell. -/
theorem C4_sentinel_witness :
    0 ≤ FindBestMove boardOneEmpty computerPiece ∧
    FindBestMove boardOneEmpty computerPiece < 9 ∧
    boardOneEmpty.getD (FindBestMove boardOneEmpty computerPiece).toNat
      EPiece.None = EPiece.None :=
  (C4_sentinel boardOneEmpty computerPiece).2 (by decide)

/-- C5 (counterexample): on the scenario board with X placed at index 2, the
returned WinningMove has direction `(0,-1)` — not in the `(-1,0)`/`(1,0)`
family the claim names — and its position is the placed cell `(0,2)` (index
2), not index 0. -/
theorem C5_counterexample :
    (CheckWin boardC5b 2).map WinningMove.direction = some ⟨0, -1⟩ ∧
    (CheckWin boardC5b 2).map WinningMove.direction ≠ some ⟨-1, 0⟩ ∧
    (CheckWin boardC5b 2).map WinningMove.direction ≠ some ⟨1, 0⟩ ∧
    (CheckWin boardC5b 2).map WinningMove.position ≠ some ⟨0, 0⟩ :=
  ⟨by decide, by decide, by decide, by decide⟩

/-- C5 (amended): on the scenario board, `CheckWin(board, 1)` returns `None`;
after placing X at index 2, `CheckWin(board, 2)` returns a WinningMove with
piece X, direction `(0,-1)` (the family traversing indices 2,1,0 under the
code's `index = x*3 + y` linearization), anchored at the placed cell, index 2
(position `(0,2)`). -/
theorem C5_scenario :
    CheckWin boardC5a 1 = none ∧
    CheckWin boardC5b 2 = some ⟨EPiece.Cross, ⟨0, 2⟩, ⟨0, -1⟩⟩ :=
  ⟨by decide, by decide⟩

/-- C6 (counterexample): on the empty board, `FindBestMove` for the automated
piece returns index 0, not the center cell 4. -/
theorem C6_counterexample :
    FindBestMove boardEmpty computerPiece = 0 ∧ (0 : Int) ≠ 4 :=
  ⟨findBestMove_empty, by decide⟩

/-- C6 (amended): on the empty 3×3 board, `FindBestMove` for the automated
piece returns index 0 — the first empty index — because all nine opening
moves have the same minimax score 0 and the strict `>` scan keeps the first;
the center (index 4) is score-optimal (its score 0 equals the maximum) but is
not the returned move. -/
theorem C6_first_cell_optimal :
    FindBestMove boardEmpty computerPiece = 0 ∧
    MiniMax (boardEmpty.set 4 computerPiece) 0 4 false = 0 ∧
    ∀ j, j < 9 → MiniMax (boardEmpty.set j computerPiece) 0 j false ≤
      MiniMax (boardEmpty.set 4 computerPiece) 0 4 false :=
  ⟨findBestMove_empty, moveValEmpty4, fun j hj => by
    rw [moveValEmpty4]
    exact moveValEmpty_le_zero j hj⟩

/-- C6 (witness): the score comparison of the amended theorem at the concrete
opening 3. -/
theorem C6_first_cell_optimal_witness :
    MiniMax (boardEmpty.set 3 computerPiece) 0 3 false ≤
      MiniMax (boardEmpty.set 4 computerPiece) 0 4 false :=
  C6_first_cell_optimal.2.2 3 (by omega)

/-- C7: the search leaves no side effects on its board: the mutating
`MiniMax` returns the board exactly as it received it (every hypothetical
placement is undone), and the local by-value copy scanned by `FindBestMove`
is likewise restored, so the caller's live board is never changed. -/
theorem C7_search_restores (b : Board) :
    (∀ (fuel depth placedPiece : Nat) (isMax : Bool),
      (MiniMaxM fuel b depth placedPiece isMax).2 = b) ∧
    (∀ piece, (FindBestMoveM b piece).2 = b) := by
  constructor
  · intro fuel depth placedPiece isMax
    rw [MiniMaxM_eq_pure]
  · intro piece
    rw [FindBestMoveM_eq_pure]

/-- C8: the count of non-Empty cells equals the `placedPieces` counter after
`Reset`, and this invariant is preserved by a human placement step and by
applying a completed search result. -/
theorem C8_invariant :
    countNonEmpty ResetState.board = ResetState.placedPieces ∧
    (∀ (st : GameState) (i : Nat) (st' : GameState), st.board.length = 9 →
      st.currentTurn ≠ EPiece.None →
      countNonEmpty st.board = st.placedPieces →
      HandlePlayerTurnStep st i = Except.ok st' →
      countNonEmpty st'.board = st'.placedPieces) ∧
    (∀ (st : GameState) (move : Int) (st' : GameState), st.board.length = 9 →
      countNonEmpty st.board = st.placedPieces →
      HandleAiTurnStep st move = Except.ok st' →
      countNonEmpty st'.board = st'.placedPieces) := by
  refine ⟨by decide, ?_, ?_⟩
  · intro st i st' hlen hturn hinv h
    unfold HandlePlayerTurnStep at h
    by_cases h9 : i ≥ 9
    · rw [if_pos h9] at h
      exact Except.noConfusion h
    · rw [if_neg h9] at h
      by_cases hemp : st.board.getD i EPiece.None = EPiece.None
      · rw [if_pos hemp] at h
        have h2 := Except.ok.inj h
        rw [← h2]
        show countNonEmpty (st.board.set i st.currentTurn) = st.placedPieces + 1
        rw [countNonEmpty_set st.board i st.currentTurn hlen (by omega) hemp
          hturn, hinv]
      · rw [if_neg hemp] at h
        have h2 := Except.ok.inj h
        rw [← h2]
        exact hinv
  · intro st move st' hlen hinv h
    unfold HandleAiTurnStep at h
    by_cases hm : move ≠ -1
    · rw [if_pos hm] at h
      by_cases hb : move < 0 ∨ move ≥ 9
      · rw [if_pos hb] at h
        exact Except.noConfusion h
      · rw [if_neg hb] at h
        by_cases hemp : st.board.getD move.toNat EPiece.None = EPiece.None
        · rw [if_pos hemp] at h
          have h2 := Except.ok.inj h
          rw [← h2]
          show countNonEmpty (st.board.set move.toNat computerPiece) =
            st.placedPieces + 1
          rw [countNonEmpty_set st.board move.toNat computerPiece hlen (by omega)
            hemp (by decide), hinv]
        · rw [if_neg hemp] at h
          have h2 := Except.ok.inj h
          rw [← h2]
          exact hinv
    · rw [if_neg hm] at h
      have h2 := Except.ok.inj h
      rw [← h2]
      exact hinv

/-- C8 (witness): the invariant after the first placement on a fresh board. -/
theorem C8_invariant_witness :
    countNonEmpty stateAfterFirst.board = stateAfterFirst.placedPieces :=
  C8_invariant.2.1 ResetState 0 stateAfterFirst (by rfl) (by decide) (by decide)
    (by rfl)

/-- C9 (counterexample): a placement on an occupied cell does not fail with a
`CellOccupied` error — the handler returns success with the state unchanged. -/
theorem C9_counterexample :
    HandlePlayerTurnStep stateOneX 0 = Except.ok stateOneX ∧
    stateOneX.board.getD 0 EPiece.None ≠ EPiece.None :=
  ⟨by rfl, by decide⟩

/-- C9 (amended): a placement at an index outside `[0, N*N)` raises the
out-of-range error (the uncaught `std::array::at` exception) rather than
being cleanly rejected; a placement on an occupied cell is silently ignored,
leaving board, placement count and turn unchanged; a valid placement sets the
cell, increments the count, advances the turn, and records the win check. -/
theorem C9_place_behaviour (st : GameState) (i : Nat) :
    (9 ≤ i → HandlePlayerTurnStep st i = Except.error "out_of_range") ∧
    (i < 9 → st.board.getD i EPiece.None ≠ EPiece.None →
      HandlePlayerTurnStep st i = Except.ok st) ∧
    (i < 9 → st.board.getD i EPiece.None = EPiece.None →
      HandlePlayerTurnStep st i = Except.ok
        { board := st.board.set i st.currentTurn
          placedPieces := st.placedPieces + 1
          currentTurn := if st.currentTurn = EPiece.Cross then EPiece.Cricle
            else EPiece.Cross
          winningMove := CheckWin (st.board.set i st.currentTurn) i }) := by
  refine ⟨?_, ?_, ?_⟩
  · intro h9
    unfold HandlePlayerTurnStep
    rw [if_pos (by omega)]
  · intro h9 hocc
    unfold HandlePlayerTurnStep
    rw [if_neg (by omega), if_neg hocc]
  · intro h9 hemp
    unfold HandlePlayerTurnStep
    rw [if_neg (by omega), if_pos hemp]

/-- C9 (witness): the amended behaviour at concrete inputs — an occupied cell
is a silent no-op and an out-of-range index errors. -/
theorem C9_place_behaviour_witness :
    HandlePlayerTurnStep stateOneX 0 = Except.ok stateOneX ∧
    HandlePlayerTurnStep stateOneX 20 = Except.error "out_of_range" :=
  ⟨(C9_place_behaviour stateOneX 0).2.1 (by omega) (by decide),
    (C9_place_behaviour stateOneX 20).1 (by omega)⟩

/-- C10: for every board, expected piece, starting position and direction
with a nonzero component, the recursive `CheckLine` terminates: its fueled
approximations agree from fuel 4 on, and out-of-grid probes and non-matching
cells end the recursion with count 0 rather than erroring. -/
theorem C10_checkline_total (b : Board) (p : EPiece) (pos dir : Vi2d)
    (hnz : dir.x ≠ 0 ∨ dir.y ≠ 0) :
    (∀ fuel, 4 ≤ fuel → CheckLineF fuel b p pos dir = CheckLine b p pos dir) ∧
    (¬ inGrid pos → CheckLine b p pos dir = 0) ∧
    (inGrid pos → cellAt b pos ≠ p → CheckLine b p pos dir = 0) := by
  refine ⟨fun fuel hf => CheckLineF_stable b p pos dir hnz fuel hf, ?_, ?_⟩
  · intro hout
    exact CheckLineF_succ_out 3 b p pos dir hout
  · intro hin hne
    unfold CheckLine
    rw [CheckLineF_succ]
    obtain ⟨h1, h2, h3, h4⟩ := hin
    rw [if_neg (by omega), if_neg (by omega), if_pos hne]

/-- C10 (witness): fuel-independence at fuel 7 for a concrete board and
direction. -/
theorem C10_checkline_total_witness :
    CheckLineF 7 boardC5b EPiece.Cross ⟨0, 0⟩ ⟨0, 1⟩ =
      CheckLine boardC5b EPiece.Cross ⟨0, 0⟩ ⟨0, 1⟩ :=
  (C10_checkline_total boardC5b EPiece.Cross ⟨0, 0⟩ ⟨0, 1⟩ (by decide)).1 7
    (by omega)

end TicTacToe
